/-
  Verification of the nanosvg document normalizer (src/svg.py) against its
  specification.

  The embedding models the lxml element tree as a finite tree of nodes with
  numeric node ids standing for Python object identity, attribute dictionaries
  as association lists in insertion order, and the `SVG` class as an explicit
  state record.  Fallible operations (decoding an unrecognized tag, replacing a
  node whose parent is gone) return `Except`.

  The shape dataclasses live in `svg_types`, which is not part of the sources
  here; where their behaviour decides a claim they are modelled from the spec
  and marked as such in their doc comments.
-/
import Mathlib

namespace Nanosvg

/-! ## XML tree model -/

/-- An element tree node: object-identity id, tag, attributes in insertion
order, children in document order.  Mirrors the lxml `Element` surface that
src/svg.py touches. -/
inductive XTree where
  | el : Nat → String → List (String × String) → List XTree → XTree

def XTree.nid : XTree → Nat
  | .el n _ _ _ => n

def XTree.tag : XTree → String
  | .el _ t _ _ => t

def XTree.attrib : XTree → List (String × String)
  | .el _ _ a _ => a

def XTree.children : XTree → List XTree
  | .el _ _ _ cs => cs

mutual
/-- Document-order iteration, root first: lxml `root.iter('*')`. -/
def XTree.preorder : XTree → List XTree
  | .el n t a cs => .el n t a cs :: preorderList cs

def preorderList : List XTree → List XTree
  | [] => []
  | c :: cs => c.preorder ++ preorderList cs
end

mutual
/-- All node ids occurring in the tree. -/
def XTree.ids : XTree → List Nat
  | .el n _ _ cs => n :: idsList cs

def idsList : List XTree → List Nat
  | [] => []
  | c :: cs => c.ids ++ idsList cs
end

mutual
/-- The id of the parent of the node with id `i`, when `i` occurs as a child
somewhere below this tree: lxml `el.getparent()` under the ids-as-identity
reading. -/
def XTree.parentOf (i : Nat) : XTree → Option Nat
  | .el n _ _ cs =>
      if cs.any (fun c => c.nid = i) then some n
      else parentOfList i cs

def parentOfList (i : Nat) : List XTree → Option Nat
  | [] => none
  | c :: cs =>
      match c.parentOf i with
      | some p => some p
      | none => parentOfList i cs
end

mutual
/-- Substitute the subtree rooted at the node with id `i` by `newT`:
the effect of lxml `parent.replace(old_el, new_el)` once the parent is known
to exist (callers check `parentOf` first). -/
def XTree.subst (i : Nat) (newT : XTree) : XTree → XTree
  | .el n t a cs =>
      if n = i then newT else .el n t a (substList i newT cs)

def substList (i : Nat) (newT : XTree) : List XTree → List XTree
  | [] => []
  | c :: cs => XTree.subst i newT c :: substList i newT cs
end

mutual
/-- The node with id `i` is a leaf wherever it occurs in this tree (valid
SVG never nests a basic shape inside another one, and shape elements carry
no element content). -/
def XTree.leafAt (i : Nat) : XTree → Bool
  | .el n _ _ cs => (!(n == i) || cs.isEmpty) && leafAtList i cs

def leafAtList (i : Nat) : List XTree → Bool
  | [] => true
  | c :: cs => XTree.leafAt i c && leafAtList i cs
end

mutual
/-- Simultaneous replacement: each node whose id is a key of `swaps` is
replaced by the corresponding new element.  This is the specification-side
description of the swap pass of `tostring` (each cached tree node replaced
by the element encoded from its cached shape). -/
def XTree.replaceAll (swaps : List (Nat × XTree)) : XTree → XTree
  | .el n t a cs =>
      match swaps.lookup n with
      | some e => e
      | none => .el n t a (replaceAllList swaps cs)

def replaceAllList (swaps : List (Nat × XTree)) : List XTree → List XTree
  | [] => []
  | c :: cs => XTree.replaceAll swaps c :: replaceAllList swaps cs
end

def serializeAttrs : List (String × String) → String
  | [] => ""
  | (k, v) :: rest => " " ++ k ++ "=\x22" ++ v ++ "\x22" ++ serializeAttrs rest

mutual
/-- Serialize the tree to text: stands for `etree.tostring`.  Exact byte
layout is irrelevant to the claims; only that serialization is a function of
the tree structure. -/
def XTree.serialize : XTree → String
  | .el _ t a cs =>
      "<" ++ t ++ serializeAttrs a ++ ">" ++ serializeList cs ++ "</" ++ t ++ ">"

def serializeList : List XTree → String
  | [] => ""
  | c :: cs => c.serialize ++ serializeList cs
end

/-- lxml deep copy: a structurally equal tree under fresh object identity.
Node ids are only ever compared within a single document, so the copy is
modelled as the identity on tree structure. -/
def deepcopy (t : XTree) : XTree := t

/-! ## Shape model

`svg_types` is not among the sources; the shape dataclasses are modelled from
the spec (§3 Shape variants, §6 numeric formatting). -/

/-- The seven recognized shape kinds: the value side of `_ELEMENT_CLASSES`. -/
inductive ShapeKind where
  | circle | ellipse | line | path | polygon | polyline | rect
deriving DecidableEq, Repr

def ShapeKind.name : ShapeKind → String
  | .circle => "circle"
  | .ellipse => "ellipse"
  | .line => "line"
  | .path => "path"
  | .polygon => "polygon"
  | .polyline => "polyline"
  | .rect => "rect"

/-- Modelled from the spec: `svg_meta.svgns()` (missing from src/), the SVG
XML namespace under which the seven tags are recognized. -/
def svgns : String := "http://www.w3.org/2000/svg"

def nsTag (k : ShapeKind) : String := "\x7b" ++ svgns ++ "\x7d" ++ k.name

/-- `_ELEMENT_CLASSES` as a tag recogniser: both the plain and the
namespace-qualified form of each of the seven tags map to its shape kind
(src/svg.py builds the dict with plain keys, then updates it with the
namespaced keys). -/
def tagToKind (t : String) : Option ShapeKind :=
  [ShapeKind.circle, .ellipse, .line, .path, .polygon, .polyline, .rect].find?
    (fun k => t = k.name || t = nsTag k)

/-- `_CLASS_ELEMENTS`: each shape class maps to its namespace-qualified tag
(built from the pre-update dict, so only namespaced tags appear). -/
def classElement (k : ShapeKind) : String := nsTag k

/-- Modelled from the spec: the dataclass field lists of `svg_types` (missing
from src/).  §3: each shape carries its geometric fields plus an optional
`clip_path` reference and common presentation attributes (opacity, fill,
stroke) passed through unchanged; base-class fields precede the geometry.
All field values are carried as their canonical strings (§6). -/
def sharedFields : List String := ["clip_path", "fill", "stroke", "opacity"]

def geomFields : ShapeKind → List String
  | .circle => ["cx", "cy", "r"]
  | .ellipse => ["cx", "cy", "rx", "ry"]
  | .line => ["x1", "y1", "x2", "y2"]
  | .path => ["d"]
  | .polygon => ["points"]
  | .polyline => ["points"]
  | .rect => ["x", "y", "width", "height", "rx", "ry"]

/-- `dataclasses.fields` order for a shape kind. -/
def fieldsOf (k : ShapeKind) : List String := sharedFields ++ geomFields k

/-- A decoded shape: its kind and its field values, positionally aligned with
`fieldsOf kind`. -/
structure ShapeData where
  kind : ShapeKind
  vals : List String
deriving DecidableEq, Repr

/-- A shape whose value list matches its declared fields (every shape built by
the decoder or the converter satisfies this). -/
def ShapeData.wf (s : ShapeData) : Prop := s.vals.length = (fieldsOf s.kind).length

instance (s : ShapeData) : Decidable s.wf := by unfold ShapeData.wf; infer_instance

/-- Value of a named field. -/
def ShapeData.get (s : ShapeData) (f : String) : String :=
  (((fieldsOf s.kind).zip s.vals).lookup f).getD ""

/-- `_OMIT_FIELD_IF_BLANK`. -/
def _OMIT_FIELD_IF_BLANK : List String := ["clip_path"]

/-- `_ATTR_RENAMES`: external attribute name to internal field name. -/
def _ATTR_RENAMES : List (String × String) := [("clip-path", "clip_path")]

/-- `_FIELD_RENAMES.get(name, name)`: internal field name to external
attribute name, defaulting to the field name itself. -/
def fieldRename (f : String) : String :=
  match _ATTR_RENAMES.find? (fun p => p.2 = f) with
  | some p => p.1
  | none => f

/-- The field-building loop of `_el_to_data`, specialised to a known kind:
for each declared field, read the (possibly renamed) attribute when present.
Modelled from the spec for the missing dataclass defaults: an absent
attribute leaves the field at its blank default. -/
def decodeShape (k : ShapeKind) (attrib : List (String × String)) : ShapeData :=
  ⟨k, (fieldsOf k).map (fun f => (attrib.lookup (fieldRename f)).getD "")⟩

/-- `_el_to_data`: raises on an unrecognized tag, otherwise decodes the
element's attributes into the shape dataclass. -/
def _el_to_data (el : XTree) : Except String ShapeData :=
  match tagToKind el.tag with
  | none => .error ("ValueError: Bad tag <" ++ el.tag ++ ">")
  | some k => .ok (decodeShape k el.attrib)

/-- One iteration of the attribute-writing loop of `_data_to_el`: skip a
blank field listed in `_OMIT_FIELD_IF_BLANK`, otherwise write the value
under the external (possibly renamed) attribute name. -/
def encStep (fv : String × String) : Option (String × String) :=
  if fv.1 ∈ _OMIT_FIELD_IF_BLANK ∧ fv.2 = "" then none
  else some (fieldRename fv.1, fv.2)

/-- The attribute dictionary written by `_data_to_el`: every field in
declaration order under its external name, except a blank field listed in
`_OMIT_FIELD_IF_BLANK`. -/
def encodeAttrs (s : ShapeData) : List (String × String) :=
  ((fieldsOf s.kind).zip s.vals).filterMap encStep

/-- `_data_to_el`: a fresh element (`i` is its fresh object identity) whose
tag is the class's namespaced tag and whose attributes are the shape's
fields. -/
def _data_to_el (i : Nat) (s : ShapeData) : XTree :=
  .el i (classElement s.kind) (encodeAttrs s) []

/-- Modelled from the spec: `as_path` of `svg_types` (missing from src/).
§4.3: a Path returns itself unchanged; every basic shape yields a new Path
carrying the non-geometric fields forward unchanged, with path data a
deterministic exact function of the shape's geometric fields.  The numeric
curve construction is irrelevant to every claim, so the generated path data
is modelled as a deterministic encoding of kind and geometry. -/
def pathDataFor (k : ShapeKind) (geom : List String) : String :=
  k.name ++ ":" ++ String.intercalate "," geom

def ShapeData.as_path (s : ShapeData) : ShapeData :=
  if s.kind = .path then s
  else
    ⟨.path, s.vals.take sharedFields.length ++
            [pathDataFor s.kind (s.vals.drop sharedFields.length)]⟩

/-- Modelled from the spec: `_etree(shape, duplicate=False)` used by
`shape_to_path` (defined outside src/): encodes the shape data object as an
element tree node without copying.  Fresh identity is irrelevant here (the
element is immediately decoded again), fixed at 0. -/
def _etree (s : ShapeData) : XTree := _data_to_el 0 s

/-- `shape_to_path`: encode the shape as an element, decode it back, convert
to path.  Decoding cannot fail because `_etree` writes a recognized tag. -/
def shape_to_path (s : ShapeData) : Except String ShapeData :=
  (_el_to_data (_etree s)).map ShapeData.as_path

/-! ## The SVG class -/

/-- The state of an `SVG` instance: its tree, its lazily populated shape
cache (`self.elements`, `None` before first access), and the supply of fresh
node identities for elements created by `etree.Element`. -/
structure SVG where
  svg_root : XTree
  elements : Option (List (Nat × ShapeData))
  nextId : Nat

/-- Python truthiness of `self.elements`: `None` and the empty list are both
falsy. -/
def truthy {α : Type} : Option (List α) → Bool
  | some (_ :: _) => true
  | _ => false

def maxId (t : XTree) : Nat := t.ids.foldr max 0

/-- `SVG.__init__` over a freshly obtained root (`fromstring` / `parse` /
a deep copy): cache unpopulated, fresh identities above everything in the
tree. -/
def SVG.ofTree (t : XTree) : SVG := ⟨t, none, maxId t + 1⟩

/-- The walk inside `_elements`: every recognized element of the tree in
document order, paired with its decoded shape; unrecognized tags are
skipped. -/
def SVG.elementsComputed (s : SVG) : List (Nat × ShapeData) :=
  s.svg_root.preorder.filterMap (fun n =>
    (tagToKind n.tag).map (fun k => (n.nid, decodeShape k n.attrib)))

/-- `SVG._elements`: return the cache when truthy, else walk the tree and
populate it. -/
def SVG.getElements (s : SVG) : List (Nat × ShapeData) × SVG :=
  if truthy s.elements then (s.elements.getD [], s)
  else
    let es := s.elementsComputed
    (es, { s with elements := some es })

/-- `SVG.shapes`. -/
def SVG.shapes (s : SVG) : List ShapeData × SVG :=
  let r := s.getElements
  (r.1.map Prod.snd, r.2)

/-- `SVG.shapes_to_paths(inplace=True)`: replace each cached pair's shape by
its path conversion; the tree is untouched (node swaps happen in
`tostring`). -/
def SVG.shapes_to_paths_inplace (s : SVG) : SVG :=
  let r := s.getElements
  { r.2 with elements := some (r.1.map (fun p => (p.1, p.2.as_path))) }

/-- `SVG.shapes_to_paths`: pair of (state of `self` after the call, returned
SVG).  The non-inplace branch builds a fresh SVG over a deep copy and never
writes to `self`. -/
def SVG.shapes_to_paths (s : SVG) (inplace : Bool) : SVG × SVG :=
  if inplace then
    let r := s.shapes_to_paths_inplace
    (r, r)
  else (s, (SVG.ofTree (deepcopy s.svg_root)).shapes_to_paths_inplace)

/-- `SVG.apply_clip_paths(inplace=True)`: the body of the in-place branch is
a stub — comments describing the intended algorithm followed by
`return self` — so it is the identity on the document state. -/
def SVG.apply_clip_paths_inplace (s : SVG) : SVG := s

/-- `SVG.apply_clip_paths`: pair of (state of `self` after the call,
returned SVG), mirroring the dual-mode pattern of `shapes_to_paths`. -/
def SVG.apply_clip_paths (s : SVG) (inplace : Bool) : SVG × SVG :=
  if inplace then
    let r := s.apply_clip_paths_inplace
    (r, r)
  else (s, (SVG.ofTree (deepcopy s.svg_root)).apply_clip_paths_inplace)

/-- The swap loop of `tostring`: each old element is looked up for a parent
(`old_el.getparent().replace(...)`); a missing parent is the Python
`AttributeError` on `None`. -/
def applySwaps : XTree → List (Nat × XTree) → Except String XTree
  | t, [] => .ok t
  | t, (oldId, newEl) :: rest =>
      match t.parentOf oldId with
      | none => .error "AttributeError: NoneType object has no attribute replace"
      | some _ => applySwaps (XTree.subst oldId newEl t) rest

/-- The swap list built by `tostring`: one freshly created element
(`etree.Element`, here identity `base + index`) per cached pair, encoding the
cached shape. -/
def swapsFor (base : Nat) (cache : List (Nat × ShapeData)) : List (Nat × XTree) :=
  cache.enum.map (fun p => (p.2.1, _data_to_el (base + p.1) p.2.2))

/-- `SVG.tostring`: when the cache is truthy, build a swap per cached pair
(a freshly created element encoding the cached shape) and apply them in
order, then serialize; the cache itself is left as it was.  When the cache
is `None` or empty, serialize the tree unchanged. -/
def SVG.tostring (s : SVG) : Except String (String × SVG) :=
  if truthy s.elements then
    let swaps := swapsFor s.nextId (s.elements.getD [])
    match applySwaps s.svg_root swaps with
    | .error e => .error e
    | .ok t' =>
        .ok (t'.serialize, { s with svg_root := t', nextId := s.nextId + swaps.length })
  else .ok (s.svg_root.serialize, s)

/-- Sanity conditions under which the swap pass is meaningful: distinct node
identities, distinct cached handles, each cached handle naming a non-root
leaf element of the tree, and all identities below the fresh-identity
bound.  Every document parsed from well-formed SVG (shape elements are
non-root and carry no element content) populates its cache this way. -/
def swapsOk (t : XTree) (cache : List (Nat × ShapeData)) (bound : Nat) : Prop :=
  t.ids.Nodup ∧ (cache.map Prod.fst).Nodup ∧
  (∀ p ∈ cache, p.1 ∈ t.ids ∧ p.1 ≠ t.nid ∧ t.leafAt p.1 = true) ∧
  (∀ j ∈ t.ids, j < bound)

instance (t : XTree) (cache : List (Nat × ShapeData)) (bound : Nat) :
    Decidable (swapsOk t cache bound) := by
  unfold swapsOk
  infer_instance

/-! ## Concrete documents and shapes used as test inputs -/

def exPathShape : ShapeData := ⟨.path, ["", "red", "", "", "M1 1 L2 2"]⟩

def exCircleShape : ShapeData := ⟨.circle, ["url(#c)", "red", "", "1", "5", "5", "2"]⟩

def exBadEl : XTree := .el 9 "g" [] []

def exCircleEl : XTree :=
  .el 2 "circle" [("cx", "5"), ("cy", "5"), ("r", "2"), ("fill", "red")] []

def exDoc : XTree := .el 1 "svg" [] [exCircleEl]

def exEmptyDoc : XTree := .el 1 "svg" [] [.el 2 "g" [("fill", "blue")] []]

def exClipBlankEl : XTree :=
  .el 7 "circle" [("cx", "1"), ("cy", "2"), ("r", "3"), ("clip-path", "")] []

def exClipContainer : XTree :=
  .el 3 "clipPath" [("id", "c")]
    [.el 4 "rect" [("x", "0"), ("y", "0"), ("width", "5"), ("height", "5")] [],
     .el 5 "rect" [("x", "3"), ("y", "3"), ("width", "5"), ("height", "5")] []]

def exClipDoc : XTree :=
  .el 1 "svg" []
    [.el 2 "defs" [] [exClipContainer],
     .el 6 "circle" [("cx", "4"), ("cy", "4"), ("r", "4"), ("clip-path", "url(#c)")] []]

/-- The cache `exDoc` populates on first access. -/
def exCache : List (Nat × ShapeData) := [(2, decodeShape .circle exCircleEl.attrib)]

/-- The state of `SVG.ofTree exDoc` after its cache has been populated. -/
def exPop : SVG := ⟨exDoc, some exCache, 3⟩

/-- A document whose root itself is a recognized shape element. -/
def exRootShape : XTree := .el 1 "circle" [("r", "5")] []

/-- The state over `exRootShape` after its cache has been populated. -/
def exRootPop : SVG := ⟨exRootShape, some [(1, decodeShape .circle exRootShape.attrib)], 2⟩

/-! ## Lemmas about association lists -/

theorem lookup_cons_self {α β : Type} [BEq α] [LawfulBEq α] (a : α) (b : β)
    (l : List (α × β)) : List.lookup a ((a, b) :: l) = some b := by
  simp [List.lookup_cons]

theorem lookup_cons_ne {α β : Type} [BEq α] [LawfulBEq α] {k a : α} (h : k ≠ a)
    (b : β) (l : List (α × β)) : List.lookup k ((a, b) :: l) = List.lookup k l := by
  simp [List.lookup_cons, beq_false_of_ne h]

theorem lookup_ne_none_mem {α β : Type} [BEq α] [LawfulBEq α] :
    ∀ {l : List (α × β)} {k : α} {v : β}, (k, v) ∈ l →
      List.lookup k l ≠ none
  | [], _, _, h => absurd h (List.not_mem_nil _)
  | (a, b) :: l, k, v, h => by
      by_cases hk : k = a
      · subst hk
        rw [lookup_cons_self]
        exact Option.some_ne_none b
      · rw [lookup_cons_ne hk]
        rcases List.mem_cons.mp h with h1 | h1
        · exact absurd (congrArg Prod.fst h1) hk
        · exact lookup_ne_none_mem h1

theorem lookup_none_of_not_mem_keys {α β : Type} [BEq α] [LawfulBEq α] :
    ∀ {l : List (α × β)} {k : α}, k ∉ l.map Prod.fst → List.lookup k l = none
  | [], _, _ => rfl
  | (a, b) :: l, k, h => by
      have hk : k ≠ a := fun he => h (he ▸ List.mem_cons_self _ _)
      rw [lookup_cons_ne hk]
      exact lookup_none_of_not_mem_keys
        (fun hm => h (List.mem_cons_of_mem _ hm))

theorem lookup_some_mem {α β : Type} [BEq α] [LawfulBEq α] :
    ∀ {l : List (α × β)} {k : α} {v : β}, List.lookup k l = some v → (k, v) ∈ l
  | [], _, _, h => by simp [List.lookup] at h
  | (a, b) :: l, k, v, h => by
      by_cases hk : k = a
      · subst hk
        rw [lookup_cons_self] at h
        rw [Option.some.injEq] at h
        exact h ▸ List.mem_cons_self _ _
      · rw [lookup_cons_ne hk] at h
        exact List.mem_cons_of_mem _ (lookup_some_mem h)

/-! ## Lemmas about the attribute machinery -/

theorem fieldRename_clip : fieldRename "clip_path" = "clip-path" := rfl

theorem fieldRename_other {f : String} (h : f ≠ "clip_path") : fieldRename f = f := by
  unfold fieldRename _ATTR_RENAMES
  simp only [List.find?]
  rw [decide_eq_false (fun hh => h hh.symm)]

theorem fieldRename_inj {f g : String} (hf : f ≠ "clip-path") (hg : g ≠ "clip-path")
    (h : fieldRename f = fieldRename g) : f = g := by
  by_cases h1 : f = "clip_path" <;> by_cases h2 : g = "clip_path"
  · rw [h1, h2]
  · rw [h1, fieldRename_clip, fieldRename_other h2] at h
    exact absurd h.symm hg
  · rw [h2, fieldRename_clip, fieldRename_other h1] at h
    exact absurd h hf
  · rwa [fieldRename_other h1, fieldRename_other h2] at h

theorem fieldsOf_nodup (k : ShapeKind) : (fieldsOf k).Nodup := by
  cases k <;> decide

theorem clip_attr_not_field (k : ShapeKind) : "clip-path" ∉ fieldsOf k := by
  cases k <;> decide

theorem clip_field_mem (k : ShapeKind) : "clip_path" ∈ fieldsOf k := by
  cases k <;> decide

/-- Lookup into the encoded attributes misses every key that is not the
rename of one of the encoded fields. -/
theorem enc_lookup_none :
    ∀ (fs vs : List String) (k' : String), (∀ f ∈ fs, fieldRename f ≠ k') →
      ((fs.zip vs).filterMap encStep).lookup k' = none
  | [], _, _, _ => rfl
  | _ :: _, [], _, _ => rfl
  | f :: fs, v :: vs, k', h => by
      have hf : k' ≠ fieldRename f := (h f (List.mem_cons_self f fs)).symm
      have ih := enc_lookup_none fs vs k' (fun g hg => h g (List.mem_cons_of_mem f hg))
      rw [List.zip_cons_cons, List.filterMap_cons]
      simp only [encStep]
      by_cases hb : f ∈ _OMIT_FIELD_IF_BLANK ∧ v = ""
      · rw [if_pos hb]
        exact ih
      · rw [if_neg hb, lookup_cons_ne hf]
        exact ih

/-- A complete zip contains every field as a key. -/
theorem zip_lookup_isSome :
    ∀ (fs vs : List String) (f : String), f ∈ fs → vs.length = fs.length →
      ((fs.zip vs).lookup f).isSome
  | [], _, _, hf, _ => absurd hf (List.not_mem_nil _)
  | _ :: _, [], _, _, hl => by simp at hl
  | g :: fs, v :: vs, f, hf, hl => by
      rw [List.zip_cons_cons]
      by_cases hfg : f = g
      · subst hfg
        rw [lookup_cons_self]
        rfl
      · rw [lookup_cons_ne hfg]
        rcases List.mem_cons.mp hf with h | h
        · exact absurd h hfg
        · exact zip_lookup_isSome fs vs f h (by simpa using hl)

/-- Characterisation of the encoded attribute dictionary: each declared
field's external name carries the field's value, except a blank `clip_path`,
which is omitted. -/
theorem enc_lookup :
    ∀ (fs vs : List String) (f : String), fs.Nodup → "clip-path" ∉ fs →
      vs.length = fs.length → f ∈ fs →
      ((fs.zip vs).filterMap encStep).lookup (fieldRename f) =
        (if f = "clip_path" ∧ ((fs.zip vs).lookup f).getD "" = "" then none
         else some (((fs.zip vs).lookup f).getD ""))
  | [], _, _, _, _, _, hf => absurd hf (List.not_mem_nil _)
  | _ :: _, [], _, _, _, hl, _ => by simp at hl
  | g :: fs, v :: vs, f, hnd, hcp, hl, hf => by
      have hgfs : g ∉ fs := (List.nodup_cons.mp hnd).1
      have hndt : fs.Nodup := (List.nodup_cons.mp hnd).2
      have hcpg : g ≠ "clip-path" := fun h => hcp (h ▸ List.mem_cons_self g fs)
      have hcpt : "clip-path" ∉ fs := fun h => hcp (List.mem_cons_of_mem g h)
      have hlt : vs.length = fs.length := by simpa using hl
      rw [List.zip_cons_cons, List.filterMap_cons]
      by_cases hfg : f = g
      · subst hfg
        rw [lookup_cons_self]
        simp only [encStep, Option.getD_some]
        by_cases hb : f ∈ _OMIT_FIELD_IF_BLANK ∧ v = ""
        · have hfc : f = "clip_path" := by
            have hm := hb.1
            simp only [_OMIT_FIELD_IF_BLANK, List.mem_singleton] at hm
            exact hm
          have hne : ∀ g' ∈ fs, fieldRename g' ≠ fieldRename f := by
            intro g' hg' heq
            have hg'c : g' ≠ "clip-path" := fun h => hcpt (h ▸ hg')
            have hfcne : f ≠ "clip-path" := by
              rw [hfc]
              decide
            have := fieldRename_inj hg'c hfcne heq
            exact hgfs (this ▸ hg')
          rw [if_pos hb, if_pos ⟨hfc, hb.2⟩]
          exact enc_lookup_none fs vs (fieldRename f) hne
        · rw [if_neg hb, lookup_cons_self,
            if_neg (fun hcon : f = "clip_path" ∧ v = "" =>
              hb ⟨hcon.1 ▸ List.mem_cons_self "clip_path" [], hcon.2⟩)]
      · have hffs : f ∈ fs := by
          rcases List.mem_cons.mp hf with h | h
          · exact absurd h hfg
          · exact h
        have hfc : f ≠ "clip-path" := fun h => hcpt (h ▸ hffs)
        have hren : fieldRename f ≠ fieldRename g := fun heq =>
          hfg (fieldRename_inj hfc hcpg heq)
        have ih := enc_lookup fs vs f hndt hcpt hlt hffs
        rw [lookup_cons_ne hfg]
        simp only [encStep]
        by_cases hb : g ∈ _OMIT_FIELD_IF_BLANK ∧ v = ""
        · rw [if_pos hb]
          exact ih
        · rw [if_neg hb, lookup_cons_ne hren]
          exact ih

/-- Looking up a field in the zip of the fields with their pointwise images
yields the image of that field. -/
theorem zip_map_lookup :
    ∀ (fs : List String) (h : String → String) (f : String), f ∈ fs →
      (fs.zip (fs.map h)).lookup f = some (h f)
  | [], _, _, hf => absurd hf (List.not_mem_nil _)
  | g :: fs, h, f, hf => by
      rw [List.map_cons, List.zip_cons_cons]
      by_cases hfg : f = g
      · subst hfg
        rw [lookup_cons_self]
      · rw [lookup_cons_ne hfg]
        rcases List.mem_cons.mp hf with h1 | h1
        · exact absurd h1 hfg
        · exact zip_map_lookup fs h f h1

/-- With distinct fields, reading each field back out of the zip recovers the
value list. -/
theorem zip_lookup_vals :
    ∀ (fs vs : List String), fs.Nodup → vs.length = fs.length →
      fs.map (fun f => ((fs.zip vs).lookup f).getD "") = vs
  | [], [], _, _ => rfl
  | [], _ :: _, _, hl => by simp at hl
  | _ :: _, [], _, hl => by simp at hl
  | g :: fs, v :: vs, hnd, hl => by
      have hgfs : g ∉ fs := (List.nodup_cons.mp hnd).1
      have hndt : fs.Nodup := (List.nodup_cons.mp hnd).2
      have hlt : vs.length = fs.length := by simpa using hl
      rw [List.zip_cons_cons]
      simp only [List.map_cons, List.cons.injEq]
      constructor
      · rw [lookup_cons_self]
        rfl
      · have hcong : ∀ f ∈ fs, ((((g, v) :: fs.zip vs).lookup f).getD "") =
            ((fs.zip vs).lookup f).getD "" := by
          intro f hffs
          rw [lookup_cons_ne (fun h => hgfs (by rwa [h] at hffs))]
        rw [List.map_congr_left hcong]
        exact zip_lookup_vals fs vs hndt hlt

/-! ## Shape-level lemmas -/

theorem tagToKind_classElement (k : ShapeKind) : tagToKind (classElement k) = some k := by
  cases k <;> rfl

theorem decodeShape_kind (k : ShapeKind) (attrib : List (String × String)) :
    (decodeShape k attrib).kind = k := rfl

theorem decodeShape_wf (k : ShapeKind) (attrib : List (String × String)) :
    (decodeShape k attrib).wf := by
  simp [decodeShape, ShapeData.wf]

/-- Decode reads each declared field from the attribute under the field's
external name, defaulting to blank. -/
theorem decodeShape_get (k : ShapeKind) (attrib : List (String × String))
    (f : String) (hf : f ∈ fieldsOf k) :
    (decodeShape k attrib).get f = (attrib.lookup (fieldRename f)).getD "" := by
  simp only [ShapeData.get, decodeShape]
  rw [zip_map_lookup (fieldsOf k) _ f hf]
  rfl

/-- The encoded attribute dictionary of a well-formed shape, characterised
field by field. -/
theorem encodeAttrs_lookup (s : ShapeData) (hwf : s.wf) (f : String)
    (hf : f ∈ fieldsOf s.kind) :
    (encodeAttrs s).lookup (fieldRename f) =
      (if f = "clip_path" ∧ s.get f = "" then none else some (s.get f)) := by
  simp only [encodeAttrs, ShapeData.get]
  exact enc_lookup (fieldsOf s.kind) s.vals f (fieldsOf_nodup s.kind)
    (clip_attr_not_field s.kind) hwf hf

/-- Round trip: decoding the element encoded from a well-formed shape
recovers the shape exactly (the blank-suppressed `clip_path` comes back as
its blank default). -/
theorem decode_encode (s : ShapeData) (hwf : s.wf) :
    decodeShape s.kind (encodeAttrs s) = s := by
  obtain ⟨k, vs⟩ := s
  have hwf2 : vs.length = (fieldsOf k).length := hwf
  simp only [decodeShape, ShapeData.mk.injEq, true_and]
  have hpt : ∀ f ∈ fieldsOf k,
      ((encodeAttrs ⟨k, vs⟩).lookup (fieldRename f)).getD "" =
        (((fieldsOf k).zip vs).lookup f).getD "" := by
    intro f hf
    rw [encodeAttrs_lookup ⟨k, vs⟩ hwf f hf]
    by_cases hc : f = "clip_path" ∧ ShapeData.get ⟨k, vs⟩ f = ""
    · rw [if_pos hc]
      exact hc.2.symm
    · rw [if_neg hc]
      rfl
  rw [List.map_congr_left hpt]
  exact zip_lookup_vals (fieldsOf k) vs (fieldsOf_nodup k) hwf2

theorem as_path_kind (s : ShapeData) : s.as_path.kind = .path := by
  simp only [ShapeData.as_path]
  by_cases h : s.kind = .path
  · rw [if_pos h]
    exact h
  · rw [if_neg h]

theorem as_path_of_path {s : ShapeData} (h : s.kind = .path) : s.as_path = s := by
  simp [ShapeData.as_path, h]

theorem as_path_wf (s : ShapeData) (hwf : s.wf) : s.as_path.wf := by
  simp only [ShapeData.as_path]
  by_cases h : s.kind = .path
  · rw [if_pos h]
    exact hwf
  · rw [if_neg h]
    have h4 : 4 ≤ s.vals.length := by
      have h5 := hwf
      simp only [ShapeData.wf, fieldsOf, List.length_append, sharedFields,
        List.length_cons, List.length_nil] at h5
      omega
    simp only [ShapeData.wf, fieldsOf, List.length_append, List.length_take,
      sharedFields, geomFields, List.length_cons, List.length_nil]
    omega

/-- `shape_to_path` computed: encode, decode back, convert. -/
theorem shape_to_path_eq (s : ShapeData) :
    shape_to_path s = .ok ((decodeShape s.kind (encodeAttrs s)).as_path) := by
  simp only [shape_to_path, _etree, _data_to_el, _el_to_data]
  rw [show (XTree.el 0 (classElement s.kind) (encodeAttrs s) []).tag
        = classElement s.kind from rfl,
      tagToKind_classElement]
  rfl

/-- Lookup in a zipped append stays in the left part when the key is a left
field and the left value list is complete. -/
theorem zip_append_lookup_left :
    ∀ (fs1 vs1 : List String) (fs2 vs2 : List String) (f : String),
      vs1.length = fs1.length → f ∈ fs1 →
      ((fs1 ++ fs2).zip (vs1 ++ vs2)).lookup f = (fs1.zip vs1).lookup f
  | [], [], _, _, _, _, hf => absurd hf (List.not_mem_nil _)
  | [], _ :: _, _, _, _, hl, _ => by simp at hl
  | _ :: _, [], _, _, _, hl, _ => by simp at hl
  | g :: fs1, v :: vs1, fs2, vs2, f, hl, hf => by
      rw [List.cons_append, List.cons_append, List.zip_cons_cons, List.zip_cons_cons]
      by_cases hfg : f = g
      · subst hfg
        rw [lookup_cons_self, lookup_cons_self]
      · rw [lookup_cons_ne hfg, lookup_cons_ne hfg]
        rcases List.mem_cons.mp hf with h | h
        · exact absurd h hfg
        · exact zip_append_lookup_left fs1 vs1 fs2 vs2 f (by simpa using hl) h

/-- Conversion to a path leaves every shared (non-geometric) field value
unchanged. -/
theorem as_path_get_shared (s : ShapeData) (hwf : s.wf) (f : String)
    (hf : f ∈ sharedFields) : s.as_path.get f = s.get f := by
  by_cases hk : s.kind = .path
  · rw [as_path_of_path hk]
  · have h4 : sharedFields.length ≤ s.vals.length := by
      have h5 := hwf
      simp only [ShapeData.wf, fieldsOf, List.length_append] at h5
      omega
    have htl : (s.vals.take sharedFields.length).length = sharedFields.length :=
      List.length_take_of_le h4
    have hs : s.get f =
        ((sharedFields.zip (s.vals.take sharedFields.length)).lookup f).getD "" := by
      simp only [ShapeData.get, fieldsOf]
      conv_lhs => rw [show s.vals = s.vals.take sharedFields.length ++
            s.vals.drop sharedFields.length from (List.take_append_drop _ _).symm]
      rw [zip_append_lookup_left _ _ _ _ f htl hf]
    have hp : s.as_path.get f =
        ((sharedFields.zip (s.vals.take sharedFields.length)).lookup f).getD "" := by
      simp only [ShapeData.as_path, if_neg hk, ShapeData.get, fieldsOf, geomFields]
      rw [zip_append_lookup_left _ _ _ _ f htl hf]
    rw [hp, hs]

/-! ## Claims -/

/-- C1: `apply_clip_paths` is specified to resolve clip references, intersect
the clip geometry into each referencing shape, and delete the resolved clip
container together with its emptied defs wrapper.  The in-place body of the
source function is a stub (`return self` below a comment block), so on a
document with a shape referencing a two-child clip container it changes
nothing: the identical state comes back, the `clipPath` container and its
`defs` wrapper are still present, and the document serializes exactly as
before. -/
theorem claim_C1_apply_clip_paths_stub :
    (SVG.ofTree exClipDoc).apply_clip_paths true =
      (SVG.ofTree exClipDoc, SVG.ofTree exClipDoc) ∧
    ((SVG.ofTree exClipDoc).apply_clip_paths true).2.svg_root.preorder.map XTree.tag =
      ["svg", "defs", "clipPath", "rect", "rect", "circle"] ∧
    ((SVG.ofTree exClipDoc).apply_clip_paths true).2.svg_root.serialize =
      exClipDoc.serialize :=
  ⟨rfl, rfl, rfl⟩

/-- C3: shape-to-path conversion is idempotent: an already-Path shape comes
back unchanged, and converting twice equals converting once. -/
theorem claim_C3_shape_to_path_idempotent (s : ShapeData) (hwf : s.wf) :
    (s.kind = .path → shape_to_path s = .ok s) ∧
    (shape_to_path s).bind shape_to_path = shape_to_path s := by
  have hq := shape_to_path_eq s
  constructor
  · intro hp
    rw [hq, decode_encode s hwf, as_path_of_path hp]
  · have hqwf : (decodeShape s.kind (encodeAttrs s)).wf := decodeShape_wf _ _
    have hpwf : ((decodeShape s.kind (encodeAttrs s)).as_path).wf := as_path_wf _ hqwf
    have hk : ((decodeShape s.kind (encodeAttrs s)).as_path).kind = .path :=
      as_path_kind _
    rw [hq]
    show shape_to_path ((decodeShape s.kind (encodeAttrs s)).as_path) = _
    rw [shape_to_path_eq ((decodeShape s.kind (encodeAttrs s)).as_path),
      decode_encode _ hpwf, as_path_of_path hk]

theorem claim_C3_witness :
    exPathShape.wf ∧
      ((exPathShape.kind = .path → shape_to_path exPathShape = .ok exPathShape) ∧
        (shape_to_path exPathShape).bind shape_to_path = shape_to_path exPathShape) :=
  ⟨by decide, claim_C3_shape_to_path_idempotent exPathShape (by decide)⟩

/-- C5: decoding an element with an unrecognized tag raises (`ValueError`),
returning no value, while whole-tree iteration keeps exactly the elements
whose decode succeeds, silently dropping the rest. -/
theorem claim_C5_unrecognized_tag (el : XTree) (t : XTree)
    (h : tagToKind el.tag = none) :
    _el_to_data el = .error ("ValueError: Bad tag <" ++ el.tag ++ ">") ∧
    ((SVG.ofTree t).shapes).1 =
      t.preorder.filterMap (fun n => (_el_to_data n).toOption) := by
  constructor
  · simp [_el_to_data, h]
  · simp only [SVG.shapes, SVG.getElements, SVG.ofTree, truthy]
    simp only [Bool.false_eq_true, if_false]
    rw [SVG.elementsComputed, List.map_filterMap]
    have hfun : ∀ n : XTree,
        ((tagToKind n.tag).map (fun k => (n.nid, decodeShape k n.attrib))).map
            Prod.snd = (_el_to_data n).toOption := by
      intro n
      cases hn : tagToKind n.tag <;> simp [_el_to_data, hn, Except.toOption]
    exact List.filterMap_congr (fun n _ => hfun n)

theorem claim_C5_witness :
    tagToKind exBadEl.tag = none ∧
      (_el_to_data exBadEl = .error ("ValueError: Bad tag <" ++ exBadEl.tag ++ ">") ∧
        ((SVG.ofTree exDoc).shapes).1 =
          exDoc.preorder.filterMap (fun n => (_el_to_data n).toOption)) :=
  ⟨by decide, claim_C5_unrecognized_tag exBadEl exDoc (by decide)⟩

/-- C6: serialization omits the `clip-path` attribute entirely when the
shape's `clip_path` field is blank, emits the stored value exactly when it is
non-empty, and no other field is blank-suppressed (every other declared
field is always emitted with its exact value, blank or not). -/
theorem claim_C6_blank_clip_suppression (s : ShapeData) (hwf : s.wf) :
    (s.get "clip_path" = "" →
      (encodeAttrs s).lookup "clip-path" = none ∧
        ∀ v, ("clip-path", v) ∉ encodeAttrs s) ∧
    (s.get "clip_path" ≠ "" →
      (encodeAttrs s).lookup "clip-path" = some (s.get "clip_path")) ∧
    (∀ f ∈ fieldsOf s.kind, f ≠ "clip_path" →
      (encodeAttrs s).lookup (fieldRename f) = some (s.get f)) := by
  have hchar := encodeAttrs_lookup s hwf "clip_path" (clip_field_mem s.kind)
  rw [fieldRename_clip] at hchar
  refine ⟨fun hb => ⟨?_, ?_⟩, fun hb => ?_, fun f hf hne => ?_⟩
  · rw [hchar, if_pos ⟨rfl, hb⟩]
  · intro v hv
    exact lookup_ne_none_mem hv (by rw [hchar, if_pos ⟨rfl, hb⟩])
  · rw [hchar, if_neg (fun hc => hb hc.2)]
  · rw [encodeAttrs_lookup s hwf f hf, if_neg (fun hc => hne hc.1)]

theorem claim_C6_witness :
    exCircleShape.wf ∧
      ((exCircleShape.get "clip_path" = "" →
        (encodeAttrs exCircleShape).lookup "clip-path" = none ∧
          ∀ v, ("clip-path", v) ∉ encodeAttrs exCircleShape) ∧
      (exCircleShape.get "clip_path" ≠ "" →
        (encodeAttrs exCircleShape).lookup "clip-path" =
          some (exCircleShape.get "clip_path")) ∧
      (∀ f ∈ fieldsOf exCircleShape.kind, f ≠ "clip_path" →
        (encodeAttrs exCircleShape).lookup (fieldRename f) =
          some (exCircleShape.get f))) :=
  ⟨by decide, claim_C6_blank_clip_suppression exCircleShape (by decide)⟩

/-- C7: the rename table holds exactly the single pair `clip-path` ↔
`clip_path`; decode reads every declared field through the table (field name
to external attribute name, identity for everything else) and encode writes
through the same table, so the renaming is consulted symmetrically. -/
theorem claim_C7_rename_table_symmetric :
    _ATTR_RENAMES = [("clip-path", "clip_path")] ∧
    fieldRename "clip_path" = "clip-path" ∧
    (∀ f, f ≠ "clip_path" → fieldRename f = f) ∧
    (∀ (k : ShapeKind) (attrib : List (String × String)) (f : String),
      f ∈ fieldsOf k →
      (decodeShape k attrib).get f = (attrib.lookup (fieldRename f)).getD "") ∧
    (∀ s : ShapeData, s.wf → ∀ f ∈ fieldsOf s.kind,
      ¬(f = "clip_path" ∧ s.get f = "") →
      (encodeAttrs s).lookup (fieldRename f) = some (s.get f)) :=
  ⟨rfl, rfl, fun _ h => fieldRename_other h, decodeShape_get,
   fun s hwf f hf hn => by rw [encodeAttrs_lookup s hwf f hf, if_neg hn]⟩

theorem claim_C7_witness :
    ("fill" : String) ≠ "clip_path" ∧ fieldRename "fill" = "fill" :=
  ⟨by decide, claim_C7_rename_table_symmetric.2.2.1 "fill" (by decide)⟩

/-- C8 fails as stated: an attribute that is present on the source element
with a blank value — `clip-path=""` — does not appear on the encoded path
element at all (it is blank-suppressed on re-encoding). -/
theorem claim_C8_counterexample :
    tagToKind exClipBlankEl.tag = some .circle ∧
    exClipBlankEl.attrib.lookup "clip-path" = some "" ∧
    (_data_to_el 0 ((decodeShape .circle exClipBlankEl.attrib).as_path)).attrib.lookup
      "clip-path" = none :=
  ⟨rfl, rfl, rfl⟩

/-- C8 (amended): conversion to a path and re-encoding carries forward every
non-geometric presentation attribute present on the source element with the
same value, except a blank `clip-path`, which is omitted by the blank
suppression rule. -/
theorem claim_C8_presentation_carryover (el : XTree) (sh : ShapeData)
    (hdec : _el_to_data el = .ok sh) (f v : String) (hf : f ∈ sharedFields)
    (hv : el.attrib.lookup (fieldRename f) = some v)
    (hnb : ¬(f = "clip_path" ∧ v = "")) :
    (_data_to_el 0 sh.as_path).attrib.lookup (fieldRename f) = some v := by
  obtain ⟨k, hk, hsh⟩ : ∃ k, tagToKind el.tag = some k ∧
      sh = decodeShape k el.attrib := by
    unfold _el_to_data at hdec
    cases hkt : tagToKind el.tag with
    | none =>
        rw [hkt] at hdec
        exact absurd hdec (by simp)
    | some k =>
        rw [hkt] at hdec
        refine ⟨k, rfl, ?_⟩
        have := Except.ok.inj hdec
        exact this.symm
  subst hsh
  have hffull : f ∈ fieldsOf k := List.mem_append_left _ hf
  have hqwf := decodeShape_wf k el.attrib
  have hget : ((decodeShape k el.attrib).as_path).get f = v := by
    rw [as_path_get_shared _ hqwf f hf, decodeShape_get k el.attrib f hffull, hv]
    rfl
  have hfp : f ∈ fieldsOf ((decodeShape k el.attrib).as_path).kind := by
    rw [as_path_kind]
    exact List.mem_append_left _ hf
  show (encodeAttrs _).lookup (fieldRename f) = some v
  rw [encodeAttrs_lookup _ (as_path_wf _ hqwf) f hfp, hget, if_neg hnb]

theorem claim_C8_witness :
    _el_to_data exCircleEl = .ok (decodeShape .circle exCircleEl.attrib) ∧
      (_data_to_el 0 (decodeShape .circle exCircleEl.attrib).as_path).attrib.lookup
        (fieldRename "fill") = some "red" :=
  ⟨rfl,
   claim_C8_presentation_carryover exCircleEl (decodeShape .circle exCircleEl.attrib)
     rfl "fill" "red" (by decide) (by decide) (by decide)⟩

/-- Computing the element walk depends only on the tree, not on the cache or
the identity supply. -/
theorem elementsComputed_only_root (t : XTree) (o : Option (List (Nat × ShapeData)))
    (b : Nat) : SVG.elementsComputed ⟨t, o, b⟩ = (SVG.ofTree t).elementsComputed := rfl

/-- After an in-place conversion over a fresh document, every shape the
document reports is a path. -/
theorem shapes_kinds_after_inplace (t : XTree) :
    ∀ sh ∈ (((SVG.ofTree t).shapes_to_paths_inplace).shapes).1, sh.kind = .path := by
  intro sh hsh
  have hR : (SVG.ofTree t).shapes_to_paths_inplace =
      ⟨t, some (((SVG.ofTree t).elementsComputed).map (fun p => (p.1, p.2.as_path))),
        maxId t + 1⟩ := rfl
  rw [hR] at hsh
  cases hE : (SVG.ofTree t).elementsComputed with
  | nil =>
      rw [hE] at hsh
      simp only [List.map_nil] at hsh
      simp only [SVG.shapes, SVG.getElements, truthy, Bool.false_eq_true,
        if_false] at hsh
      rw [elementsComputed_only_root, hE] at hsh
      simp at hsh
  | cons p ps =>
      rw [hE] at hsh
      simp only [List.map_cons] at hsh
      simp only [SVG.shapes, SVG.getElements, truthy, if_true, Option.getD_some,
        List.map_cons, List.mem_cons, List.map_map] at hsh
      rcases hsh with h | h
      · rw [h]
        exact as_path_kind _
      · rw [List.mem_map] at h
        obtain ⟨q, _, hq⟩ := h
        rw [← hq]
        exact as_path_kind _

/-- C2: the non-in-place conversion leaves the source untouched — the same
state comes back and it serializes to the same bytes — and returns a fresh
normalizer over a deep copy of the tree in which every reported shape has
become a path. -/
theorem claim_C2_shapes_to_paths_copy (s : SVG) :
    (s.shapes_to_paths false).1 = s ∧
    ((s.shapes_to_paths false).1).svg_root.serialize = s.svg_root.serialize ∧
    ((s.shapes_to_paths false).2).svg_root = deepcopy s.svg_root ∧
    ∀ sh ∈ (((s.shapes_to_paths false).2).shapes).1, sh.kind = .path :=
  ⟨rfl, rfl, rfl, fun sh hsh => shapes_kinds_after_inplace (deepcopy s.svg_root) sh hsh⟩

theorem claim_C2_witness :
    ((decodeShape .circle exCircleEl.attrib).as_path).kind = .path :=
  (claim_C2_shapes_to_paths_copy (SVG.ofTree exDoc)).2.2.2
    ((decodeShape .circle exCircleEl.attrib).as_path) (by decide)

/-- C10: in a document with no recognized shape element, the cache is
populated as the empty list, which Python truthiness treats as absent: the
reported shapes stay empty on repeated calls, and `tostring` serializes the
tree unchanged even after an in-place `shapes_to_paths`. -/
theorem claim_C10_empty_cache_is_falsy (t : XTree)
    (h : ∀ n ∈ t.preorder, tagToKind n.tag = none) :
    ((SVG.ofTree t).shapes).1 = [] ∧
    ((SVG.ofTree t).shapes).2.elements = some [] ∧
    truthy ((SVG.ofTree t).shapes).2.elements = false ∧
    (((SVG.ofTree t).shapes).2.shapes).1 = [] ∧
    ((SVG.ofTree t).shapes_to_paths_inplace).tostring =
      .ok (t.serialize, (SVG.ofTree t).shapes_to_paths_inplace) := by
  have hcomp : (SVG.ofTree t).elementsComputed = [] := by
    simp only [SVG.elementsComputed]
    rw [List.filterMap_eq_nil]
    intro n hn
    rw [h n hn]
    rfl
  have hR : (SVG.ofTree t).shapes = ([], ⟨t, some [], maxId t + 1⟩) := by
    simp only [SVG.shapes, SVG.getElements, SVG.ofTree, truthy, Bool.false_eq_true,
      if_false]
    rw [show SVG.elementsComputed ⟨t, none, maxId t + 1⟩ =
          (SVG.ofTree t).elementsComputed from rfl, hcomp]
    simp [SVG.ofTree]
  refine ⟨by rw [hR], by rw [hR], by rw [hR]; rfl, ?_, ?_⟩
  · rw [hR]
    simp only [SVG.shapes, SVG.getElements, truthy, Bool.false_eq_true, if_false]
    rw [elementsComputed_only_root, hcomp]
    rfl
  · have hI : (SVG.ofTree t).shapes_to_paths_inplace =
        ⟨t, some [], maxId t + 1⟩ := by
      simp only [SVG.shapes_to_paths_inplace, SVG.getElements, SVG.ofTree, truthy,
        Bool.false_eq_true, if_false]
      rw [show SVG.elementsComputed ⟨t, none, maxId t + 1⟩ =
            (SVG.ofTree t).elementsComputed from rfl, hcomp]
      rfl
    rw [hI]
    rfl

theorem claim_C10_witness :
    (∀ n ∈ exEmptyDoc.preorder, tagToKind n.tag = none) ∧
      (((SVG.ofTree exEmptyDoc).shapes).1 = [] ∧
        ((SVG.ofTree exEmptyDoc).shapes).2.elements = some [] ∧
        truthy ((SVG.ofTree exEmptyDoc).shapes).2.elements = false ∧
        (((SVG.ofTree exEmptyDoc).shapes).2.shapes).1 = [] ∧
        ((SVG.ofTree exEmptyDoc).shapes_to_paths_inplace).tostring =
          .ok (exEmptyDoc.serialize,
            (SVG.ofTree exEmptyDoc).shapes_to_paths_inplace)) :=
  ⟨by decide, claim_C10_empty_cache_is_falsy exEmptyDoc (by decide)⟩

/-! ## Lemmas about the tree surgery performed by tostring -/

theorem nid_mem_ids : ∀ (t : XTree), t.nid ∈ t.ids
  | .el n _ _ cs => List.mem_cons_self n (idsList cs)

theorem mem_idsList_of_mem :
    ∀ {cs : List XTree} {c : XTree}, c ∈ cs → ∀ {j : Nat}, j ∈ c.ids → j ∈ idsList cs
  | c' :: cs, c, hc, j, hj => by
      rcases List.mem_cons.mp hc with h | h
      · subst h
        exact List.mem_append_left _ hj
      · exact List.mem_append_right _ (mem_idsList_of_mem h hj)

theorem ids_of_leaf {t : XTree} (h : t.children = []) : t.ids = [t.nid] := by
  cases t with
  | el n tg a cs =>
      have hcs : cs = [] := h
      subst hcs
      rfl

mutual
theorem parentOf_isSome : ∀ (t : XTree) (i : Nat), i ∈ t.ids → i ≠ t.nid →
    (t.parentOf i).isSome = true
  | .el n _ _ cs, i, hmem, hne => by
      rw [XTree.parentOf]
      by_cases hany : cs.any (fun c => c.nid = i)
      · rw [if_pos hany]
        rfl
      · rw [if_neg hany]
        have hmem2 : i ∈ idsList cs := by
          rcases List.mem_cons.mp (show i ∈ n :: idsList cs from hmem) with h | h
          · exact absurd h hne
          · exact h
        have hnoc : ∀ c ∈ cs, c.nid ≠ i := by
          intro c hc he
          exact hany (List.any_eq_true.mpr ⟨c, hc, by simp [he]⟩)
        exact parentOfList_isSome cs i hmem2 hnoc

theorem parentOfList_isSome : ∀ (cs : List XTree) (i : Nat), i ∈ idsList cs →
    (∀ c ∈ cs, c.nid ≠ i) → (parentOfList i cs).isSome = true
  | [], i, hmem, _ => by simp [idsList] at hmem
  | c :: cs, i, hmem, hnoc => by
      rw [parentOfList]
      cases hc : c.parentOf i with
      | some p => rfl
      | none =>
          rcases List.mem_append.mp (show i ∈ c.ids ++ idsList cs from hmem) with
            h | h
          · have := parentOf_isSome c i h
              (fun he => hnoc c (List.mem_cons_self _ _) he.symm)
            rw [hc] at this
            exact absurd this (by simp)
          · exact parentOfList_isSome cs i h
              (fun c' hc' => hnoc c' (List.mem_cons_of_mem _ hc'))
end

mutual
theorem parentOf_none : ∀ (t : XTree) (i : Nat), i ∉ t.ids → t.parentOf i = none
  | .el n _ _ cs, i, hmem => by
      rw [XTree.parentOf]
      have hany : cs.any (fun c => c.nid = i) = false := by
        rw [List.any_eq_false]
        intro c hc
        simp only [decide_eq_true_eq]
        intro he
        exact hmem (List.mem_cons_of_mem n
          (mem_idsList_of_mem hc (he ▸ nid_mem_ids c)))
      simp only [hany, Bool.false_eq_true, if_false]
      exact parentOfList_none cs i (fun h => hmem (List.mem_cons_of_mem n h))

theorem parentOfList_none : ∀ (cs : List XTree) (i : Nat), i ∉ idsList cs →
    parentOfList i cs = none
  | [], _, _ => rfl
  | c :: cs, i, hmem => by
      rw [parentOfList,
        parentOf_none c i (fun h => hmem (List.mem_append_left _ h))]
      exact parentOfList_none cs i (fun h => hmem (List.mem_append_right _ h))
end

mutual
theorem subst_no_occ : ∀ (t : XTree) (i : Nat) (e : XTree), i ∉ t.ids →
    XTree.subst i e t = t
  | .el n tg a cs, i, e, h => by
      rw [XTree.subst,
        if_neg (fun he : n = i => h (he ▸ List.mem_cons_self n (idsList cs))),
        substList_no_occ cs i e (fun hm => h (List.mem_cons_of_mem n hm))]

theorem substList_no_occ : ∀ (cs : List XTree) (i : Nat) (e : XTree),
    i ∉ idsList cs → substList i e cs = cs
  | [], _, _, _ => rfl
  | c :: cs, i, e, h => by
      rw [substList,
        subst_no_occ c i e (fun hm => h (List.mem_append_left _ hm)),
        substList_no_occ cs i e (fun hm => h (List.mem_append_right _ hm))]
end

mutual
theorem subst_ids_sub : ∀ (t : XTree) (i : Nat) (e : XTree) (j : Nat),
    j ∈ (XTree.subst i e t).ids → j ∈ t.ids ∨ j ∈ e.ids
  | .el n tg a cs, i, e, j, h => by
      rw [XTree.subst] at h
      by_cases hni : n = i
      · rw [if_pos hni] at h
        exact Or.inr h
      · rw [if_neg hni] at h
        rcases List.mem_cons.mp
          (show j ∈ n :: idsList (substList i e cs) from h) with h1 | h1
        · exact Or.inl (h1 ▸ List.mem_cons_self n (idsList cs))
        · rcases substList_ids_sub cs i e j h1 with h2 | h2
          · exact Or.inl (List.mem_cons_of_mem n h2)
          · exact Or.inr h2

theorem substList_ids_sub : ∀ (cs : List XTree) (i : Nat) (e : XTree) (j : Nat),
    j ∈ idsList (substList i e cs) → j ∈ idsList cs ∨ j ∈ e.ids
  | [], _, _, _, h => by simp [idsList, substList] at h
  | c :: cs, i, e, j, h => by
      rcases List.mem_append.mp
        (show j ∈ (XTree.subst i e c).ids ++ idsList (substList i e cs) from h) with
        h1 | h1
      · rcases subst_ids_sub c i e j h1 with h2 | h2
        · exact Or.inl (List.mem_append_left _ h2)
        · exact Or.inr h2
      · rcases substList_ids_sub cs i e j h1 with h2 | h2
        · exact Or.inl (List.mem_append_right _ h2)
        · exact Or.inr h2
end

mutual
theorem subst_not_mem : ∀ (t : XTree) (i : Nat) (e : XTree), i ∉ e.ids →
    i ∉ (XTree.subst i e t).ids
  | .el n tg a cs, i, e, he, h => by
      rw [XTree.subst] at h
      by_cases hni : n = i
      · rw [if_pos hni] at h
        exact he h
      · rw [if_neg hni] at h
        rcases List.mem_cons.mp
          (show i ∈ n :: idsList (substList i e cs) from h) with h1 | h1
        · exact hni h1.symm
        · exact substList_not_mem cs i e he h1

theorem substList_not_mem : ∀ (cs : List XTree) (i : Nat) (e : XTree), i ∉ e.ids →
    i ∉ idsList (substList i e cs)
  | [], _, _, _, h => by simp [idsList, substList] at h
  | c :: cs, i, e, he, h => by
      rcases List.mem_append.mp
        (show i ∈ (XTree.subst i e c).ids ++ idsList (substList i e cs) from h) with
        h1 | h1
      · exact subst_not_mem c i e he h1
      · exact substList_not_mem cs i e he h1
end

theorem subst_nid (t : XTree) (i : Nat) (e : XTree) (h : t.nid ≠ i) :
    (XTree.subst i e t).nid = t.nid := by
  cases t with
  | el n tg a cs =>
      rw [XTree.subst, if_neg (fun he : n = i => h he)]
      rfl

theorem leafAt_self_nil {i : Nat} {tg : String} {a : List (String × String)}
    {cs : List XTree} (h : XTree.leafAt i (.el i tg a cs) = true) : cs = [] := by
  rw [XTree.leafAt] at h
  simp only [beq_self_eq_true, Bool.not_true, Bool.false_or, Bool.and_eq_true,
    List.isEmpty_iff] at h
  exact h.1

theorem leafAt_tail {i n : Nat} {tg : String} {a : List (String × String)}
    {cs : List XTree} (h : XTree.leafAt i (.el n tg a cs) = true) :
    leafAtList i cs = true := by
  rw [XTree.leafAt, Bool.and_eq_true] at h
  exact h.2

theorem leafAt_of_mem_list {i : Nat} :
    ∀ {cs : List XTree} {c : XTree}, c ∈ cs → leafAtList i cs = true →
      XTree.leafAt i c = true
  | c' :: cs, c, hc, h => by
      rw [leafAtList, Bool.and_eq_true] at h
      rcases List.mem_cons.mp hc with h1 | h1
      · exact h1 ▸ h.1
      · exact leafAt_of_mem_list h1 h.2

theorem leafAt_leaf (e : XTree) (he : e.children = []) (j : Nat) :
    e.leafAt j = true := by
  cases e with
  | el n tg a cs =>
      have hcs : cs = [] := he
      subst hcs
      simp [XTree.leafAt, leafAtList]

mutual
theorem subst_mem_leaf : ∀ (t : XTree) (i j : Nat) (e : XTree), j ∈ t.ids →
    j ≠ i → t.leafAt i = true → j ∈ (XTree.subst i e t).ids
  | .el n tg a cs, i, j, e, hj, hne, hleaf => by
      rw [XTree.subst]
      by_cases hni : n = i
      · subst hni
        have hcs : cs = [] := leafAt_self_nil hleaf
        subst hcs
        rcases List.mem_cons.mp (show j ∈ n :: idsList [] from hj) with h1 | h1
        · exact absurd h1 hne
        · simp [idsList] at h1
      · rw [if_neg hni]
        rcases List.mem_cons.mp (show j ∈ n :: idsList cs from hj) with h1 | h1
        · exact h1 ▸ List.mem_cons_self n _
        · exact List.mem_cons_of_mem n
            (substList_mem_leaf cs i j e h1 hne (leafAt_tail hleaf))

theorem substList_mem_leaf : ∀ (cs : List XTree) (i j : Nat) (e : XTree),
    j ∈ idsList cs → j ≠ i → leafAtList i cs = true →
    j ∈ idsList (substList i e cs)
  | [], _, _, _, hj, _, _ => by simp [idsList] at hj
  | c :: cs, i, j, e, hj, hne, hleaf => by
      rw [leafAtList, Bool.and_eq_true] at hleaf
      rcases List.mem_append.mp (show j ∈ c.ids ++ idsList cs from hj) with h1 | h1
      · exact List.mem_append_left _ (subst_mem_leaf c i j e h1 hne hleaf.1)
      · exact List.mem_append_right _
          (substList_mem_leaf cs i j e h1 hne hleaf.2)
end

mutual
theorem leafAt_subst : ∀ (t : XTree) (i j : Nat) (e : XTree), t.leafAt j = true →
    e.children = [] → (XTree.subst i e t).leafAt j = true
  | .el n tg a cs, i, j, e, hleaf, he => by
      rw [XTree.subst]
      by_cases hni : n = i
      · rw [if_pos hni]
        exact leafAt_leaf e he j
      · rw [if_neg hni, XTree.leafAt, Bool.and_eq_true]
        rw [XTree.leafAt, Bool.and_eq_true] at hleaf
        refine ⟨?_, leafAtList_subst cs i j e hleaf.2 he⟩
        have hor := hleaf.1
        rw [Bool.or_eq_true] at hor
        rcases hor with h1 | h1
        · rw [h1]
          rfl
        · have hcs : cs = [] := List.isEmpty_iff.mp h1
          subst hcs
          rw [show substList i e [] = [] from rfl]
          simp

theorem leafAtList_subst : ∀ (cs : List XTree) (i j : Nat) (e : XTree),
    leafAtList j cs = true → e.children = [] →
    leafAtList j (substList i e cs) = true
  | [], _, _, _, _, _ => rfl
  | c :: cs, i, j, e, hleaf, he => by
      rw [leafAtList, Bool.and_eq_true] at hleaf
      rw [substList, leafAtList, Bool.and_eq_true]
      exact ⟨leafAt_subst c i j e hleaf.1 he, leafAtList_subst cs i j e hleaf.2 he⟩
end

mutual
theorem replaceAll_id : ∀ (sw : List (Nat × XTree)) (t : XTree),
    (∀ j ∈ t.ids, sw.lookup j = none) → XTree.replaceAll sw t = t
  | sw, .el n tg a cs, h => by
      rw [XTree.replaceAll, h n (List.mem_cons_self n (idsList cs))]
      rw [replaceAllList_id sw cs (fun j hj => h j (List.mem_cons_of_mem n hj))]

theorem replaceAllList_id : ∀ (sw : List (Nat × XTree)) (cs : List XTree),
    (∀ j ∈ idsList cs, sw.lookup j = none) → replaceAllList sw cs = cs
  | _, [], _ => rfl
  | sw, c :: cs, h => by
      rw [replaceAllList,
        replaceAll_id sw c (fun j hj => h j (List.mem_append_left _ hj)),
        replaceAllList_id sw cs (fun j hj => h j (List.mem_append_right _ hj))]
end

mutual
theorem replaceAll_subst : ∀ (t : XTree) (i : Nat) (e : XTree)
    (rest : List (Nat × XTree)), (∀ j ∈ e.ids, rest.lookup j = none) →
    XTree.replaceAll rest (XTree.subst i e t) =
      XTree.replaceAll ((i, e) :: rest) t
  | .el n tg a cs, i, e, rest, he => by
      rw [XTree.subst]
      by_cases hni : n = i
      · rw [if_pos hni, replaceAll_id rest e he]
        subst hni
        rw [XTree.replaceAll, lookup_cons_self]
      · rw [if_neg hni, XTree.replaceAll, XTree.replaceAll, lookup_cons_ne hni]
        cases hl : rest.lookup n with
        | some u => rfl
        | none =>
            rw [replaceAllList_subst cs i e rest he]

theorem replaceAllList_subst : ∀ (cs : List XTree) (i : Nat) (e : XTree)
    (rest : List (Nat × XTree)), (∀ j ∈ e.ids, rest.lookup j = none) →
    replaceAllList rest (substList i e cs) =
      replaceAllList ((i, e) :: rest) cs
  | [], _, _, _, _ => rfl
  | c :: cs, i, e, rest, he => by
      rw [substList, replaceAllList, replaceAllList,
        replaceAll_subst c i e rest he, replaceAllList_subst cs i e rest he]
end

mutual
theorem replaceAll_removes : ∀ (sw : List (Nat × XTree)) (x : Nat) (t : XTree),
    sw.lookup x ≠ none → (∀ p ∈ sw, x ∉ p.2.ids) →
    x ∉ (XTree.replaceAll sw t).ids
  | sw, x, .el n tg a cs, hx, hids, hmem => by
      rw [XTree.replaceAll] at hmem
      cases hl : sw.lookup n with
      | some u =>
          rw [hl] at hmem
          exact hids (n, u) (lookup_some_mem hl) hmem
      | none =>
          rw [hl] at hmem
          rcases List.mem_cons.mp
            (show x ∈ n :: idsList (replaceAllList sw cs) from hmem) with h1 | h1
          · rw [h1] at hx
            exact hx hl
          · exact replaceAllList_removes sw x cs hx hids h1

theorem replaceAllList_removes : ∀ (sw : List (Nat × XTree)) (x : Nat)
    (cs : List XTree), sw.lookup x ≠ none → (∀ p ∈ sw, x ∉ p.2.ids) →
    x ∉ idsList (replaceAllList sw cs)
  | _, _, [], _, _, hmem => by simp [idsList, replaceAllList] at hmem
  | sw, x, c :: cs, hx, hids, hmem => by
      rcases List.mem_append.mp
        (show x ∈ (XTree.replaceAll sw c).ids ++
          idsList (replaceAllList sw cs) from hmem) with h1 | h1
      · exact replaceAll_removes sw x c hx hids h1
      · exact replaceAllList_removes sw x cs hx hids h1
end

/-- Sequential application of the swaps succeeds and equals the simultaneous
replacement, provided the targets are distinct non-root leaves and the new
elements are fresh leaves. -/
theorem applySwaps_ok : ∀ (swaps : List (Nat × XTree)) (t : XTree),
    (swaps.map Prod.fst).Nodup →
    (swaps.map (fun p => p.2.nid)).Nodup →
    (∀ p ∈ swaps, p.1 ∈ t.ids ∧ p.1 ≠ t.nid ∧ t.leafAt p.1 = true ∧
      p.2.children = [] ∧ p.2.nid ∉ t.ids ∧ p.2.nid ∉ swaps.map Prod.fst) →
    applySwaps t swaps = .ok (t.replaceAll swaps)
  | [], t, _, _, _ => by
      rw [applySwaps, replaceAll_id [] t (fun j hj => rfl)]
  | (i, e) :: rest, t, hknd, hnnd, hper => by
      obtain ⟨hi_mem, hi_root, hi_leaf, he_child, he_fresh, he_nokeys⟩ :=
        hper (i, e) (List.mem_cons_self _ _)
      rw [applySwaps]
      have hps := parentOf_isSome t i hi_mem hi_root
      cases hp : t.parentOf i with
      | none =>
          rw [hp] at hps
          exact absurd hps (by simp)
      | some q =>
          have hknd2 : i ∉ rest.map Prod.fst ∧ (rest.map Prod.fst).Nodup := by
            rw [List.map_cons] at hknd
            exact List.nodup_cons.mp hknd
          have hnnd2 : e.nid ∉ rest.map (fun p => p.2.nid) ∧
              (rest.map (fun p => p.2.nid)).Nodup := by
            rw [List.map_cons] at hnnd
            exact List.nodup_cons.mp hnnd
          have hrest : ∀ p ∈ rest, p.1 ∈ (XTree.subst i e t).ids ∧
              p.1 ≠ (XTree.subst i e t).nid ∧
              (XTree.subst i e t).leafAt p.1 = true ∧ p.2.children = [] ∧
              p.2.nid ∉ (XTree.subst i e t).ids ∧
              p.2.nid ∉ rest.map Prod.fst := by
            intro p hmemR
            obtain ⟨hp_mem, hp_root, hp_leaf, hp_child, hp_fresh, hp_nokeys⟩ :=
              hper p (List.mem_cons_of_mem _ hmemR)
            have hp_ne_i : p.1 ≠ i := fun he2 =>
              hknd2.1 (he2 ▸ List.mem_map_of_mem Prod.fst hmemR)
            refine ⟨subst_mem_leaf t i p.1 e hp_mem hp_ne_i hi_leaf, ?_,
              leafAt_subst t i p.1 e hp_leaf he_child, hp_child, ?_,
              fun hm => hp_nokeys (by
                rw [List.map_cons]
                exact List.mem_cons_of_mem _ hm)⟩
            · rw [subst_nid t i e (fun he2 => hi_root he2.symm)]
              exact hp_root
            · intro hm
              rcases subst_ids_sub t i e p.2.nid hm with h1 | h1
              · exact hp_fresh h1
              · rw [ids_of_leaf he_child] at h1
                have heq : p.2.nid = e.nid := List.mem_singleton.mp h1
                have hmem2 : p.2.nid ∈ rest.map (fun q2 : Nat × XTree => q2.2.nid) :=
                  List.mem_map_of_mem (fun q2 : Nat × XTree => q2.2.nid) hmemR
                rw [heq] at hmem2
                exact hnnd2.1 hmem2
          rw [applySwaps_ok rest (XTree.subst i e t) hknd2.2 hnnd2.2 hrest,
            replaceAll_subst t i e rest (by
              intro j hj
              rw [ids_of_leaf he_child] at hj
              have heq : j = e.nid := List.mem_singleton.mp hj
              subst heq
              exact lookup_none_of_not_mem_keys (fun hm => he_nokeys (by
                rw [List.map_cons]
                exact List.mem_cons_of_mem _ hm)))]

/-! ## The swap list built by tostring -/

theorem swapsFor_length (b : Nat) (l : List (Nat × ShapeData)) :
    (swapsFor b l).length = l.length := by
  simp [swapsFor]

theorem swapsFor_keys (b : Nat) (l : List (Nat × ShapeData)) :
    (swapsFor b l).map Prod.fst = l.map Prod.fst := by
  simp only [swapsFor, List.map_map]
  rw [show (Prod.fst ∘ fun p : Nat × (Nat × ShapeData) =>
        (p.2.1, _data_to_el (b + p.1) p.2.2)) = Prod.fst ∘ Prod.snd from rfl,
    ← List.map_map, List.enum_map_snd]

theorem swapsFor_newids (b : Nat) (l : List (Nat × ShapeData)) :
    (swapsFor b l).map (fun p => p.2.nid) =
      (List.range l.length).map (fun x => b + x) := by
  simp only [swapsFor, List.map_map]
  rw [show ((fun p : Nat × XTree => p.2.nid) ∘ fun p : Nat × (Nat × ShapeData) =>
        (p.2.1, _data_to_el (b + p.1) p.2.2)) = (fun x => b + x) ∘ Prod.fst from
      rfl,
    ← List.map_map, List.enum_map_fst]

theorem mem_swapsFor {b : Nat} {l : List (Nat × ShapeData)} {p : Nat × XTree}
    (hp : p ∈ swapsFor b l) :
    ∃ idx pr, pr ∈ l ∧ idx < l.length ∧ p = (pr.1, _data_to_el (b + idx) pr.2) := by
  obtain ⟨q, hq, hpe⟩ := List.mem_map.mp hp
  have hq2 := List.mem_enumFrom hq
  refine ⟨q.1, q.2, ?_, by omega, hpe.symm⟩
  rw [hq2.2.2]
  exact List.getElem_mem _

/-- `tostring` with an unpopulated (or empty, hence falsy) cache serializes
the tree unchanged and leaves the state as it is. -/
theorem tostring_not_truthy (s : SVG) (h : truthy s.elements = false) :
    s.tostring = .ok (s.svg_root.serialize, s) := by
  rw [SVG.tostring]
  simp only [h, Bool.false_eq_true, if_false]

/-- `tostring` with a populated cache over a sane document: every cached
node is simultaneously replaced by the element encoded from its cached
shape, the result is serialized, and the cache is left stale (still holding
the now-detached old handles). -/
theorem tostring_populated (s : SVG) (cache : List (Nat × ShapeData))
    (hel : s.elements = some cache) (hok : swapsOk s.svg_root cache s.nextId) :
    s.tostring = .ok
      ((s.svg_root.replaceAll (swapsFor s.nextId cache)).serialize,
       { s with svg_root := s.svg_root.replaceAll (swapsFor s.nextId cache),
                nextId := s.nextId + cache.length }) := by
  obtain ⟨hidnd, hknd, hper, hbound⟩ := hok
  cases cache with
  | nil =>
      rw [tostring_not_truthy s (by rw [hel]; rfl)]
      rw [show swapsFor s.nextId [] = [] from rfl,
        replaceAll_id [] s.svg_root (fun j hj => rfl)]
      cases s with
      | mk root el nid => simp
  | cons c cs =>
      have hgood : applySwaps s.svg_root (swapsFor s.nextId (c :: cs)) =
          .ok (s.svg_root.replaceAll (swapsFor s.nextId (c :: cs))) := by
        apply applySwaps_ok
        · rw [swapsFor_keys]
          exact hknd
        · rw [swapsFor_newids]
          exact (List.nodup_range _).map (fun x y hxy => by omega)
        · intro p hp
          obtain ⟨idx, pr, hpr, hidx, hpe⟩ := mem_swapsFor hp
          obtain ⟨h1, h2, h3⟩ := hper pr hpr
          subst hpe
          have hfresh : s.nextId + idx ∉ s.svg_root.ids := fun hm => by
            have := hbound _ hm
            omega
          refine ⟨h1, h2, h3, rfl, hfresh, ?_⟩
          rw [swapsFor_keys]
          intro hm
          obtain ⟨pr2, hpr2, hpe2⟩ := List.mem_map.mp hm
          have hlt := hbound pr2.1 (hper pr2 hpr2).1
          have hd : (pr.1, _data_to_el (s.nextId + idx) pr.2).2.nid =
              s.nextId + idx := rfl
          omega
      rw [SVG.tostring]
      simp only [hel, Option.getD_some, truthy, if_true, hgood, swapsFor_length]

/-- C4 fails as stated: in a document whose root is itself a recognized
shape, the populated-cache pass of `tostring` finds no parent for the cached
root node (`getparent()` is `None`) and raises instead of emitting any
bytes. -/
theorem claim_C4_counterexample :
    exRootPop.elements = some [(1, decodeShape .circle exRootShape.attrib)] ∧
    ((SVG.ofTree exRootShape).shapes).2 = exRootPop ∧
    exRootPop.tostring =
      .error "AttributeError: NoneType object has no attribute replace" :=
  ⟨rfl, rfl, rfl⟩

/-- C4 (amended): `tostring` emits the tree unchanged when the shape cache
was never accessed (or is empty), and when the cache has been populated over
a document whose recognized shape elements are distinct non-root leaf nodes
(as in any well-formed SVG document), it first replaces each cached tree
node with the element encoded from its cached shape and then emits the bytes
of the resulting document. -/
theorem claim_C4_tostring_swaps (s : SVG) :
    (truthy s.elements = false → s.tostring = .ok (s.svg_root.serialize, s)) ∧
    (∀ cache, s.elements = some cache → swapsOk s.svg_root cache s.nextId →
      s.tostring = .ok
        ((s.svg_root.replaceAll (swapsFor s.nextId cache)).serialize,
         { s with svg_root := s.svg_root.replaceAll (swapsFor s.nextId cache),
                  nextId := s.nextId + cache.length })) :=
  ⟨tostring_not_truthy s, fun cache hel hok => tostring_populated s cache hel hok⟩

theorem claim_C4_witness :
    truthy (SVG.ofTree exDoc).elements = false ∧
    (SVG.ofTree exDoc).tostring =
      .ok ((SVG.ofTree exDoc).svg_root.serialize, SVG.ofTree exDoc) ∧
    exPop.elements = some exCache ∧
    swapsOk exPop.svg_root exCache exPop.nextId ∧
    exPop.tostring = .ok
      ((exPop.svg_root.replaceAll (swapsFor exPop.nextId exCache)).serialize,
       { exPop with
          svg_root := exPop.svg_root.replaceAll (swapsFor exPop.nextId exCache),
          nextId := exPop.nextId + exCache.length }) :=
  ⟨rfl, (claim_C4_tostring_swaps (SVG.ofTree exDoc)).1 rfl, rfl, by decide,
   (claim_C4_tostring_swaps exPop).2 exCache rfl (by decide)⟩

/-- C9: once the cache is populated over a sane document, the first
`tostring` succeeds but leaves the cache holding the now-detached old
nodes, so a second call to `tostring` fails (its node replacement finds no
parent to operate on). -/
theorem claim_C9_second_tostring_fails (s : SVG) (cache : List (Nat × ShapeData))
    (hel : s.elements = some cache) (hne : cache ≠ [])
    (hok : swapsOk s.svg_root cache s.nextId) :
    s.tostring.isOk = true ∧
    s.tostring.toOption.map (fun r => r.2.elements) = some (some cache) ∧
    (s.tostring.bind (fun r => r.2.tostring)).isOk = false := by
  have heq := tostring_populated s cache hel hok
  obtain ⟨hidnd, hknd, hper, hbound⟩ := hok
  refine ⟨by rw [heq]; rfl, ?_, ?_⟩
  · rw [heq]
    exact congrArg some hel
  · rw [heq]
    show (SVG.tostring
      { s with svg_root := s.svg_root.replaceAll (swapsFor s.nextId cache),
               nextId := s.nextId + cache.length }).isOk = false
    cases cache with
    | nil => exact absurd rfl hne
    | cons c cs =>
        have hhead : (c.1, _data_to_el (s.nextId + 0) c.2) ∈
            swapsFor s.nextId (c :: cs) := List.mem_cons_self _ _
        have hnomem : c.1 ∉
            (s.svg_root.replaceAll (swapsFor s.nextId (c :: cs))).ids := by
          apply replaceAll_removes
          · exact lookup_ne_none_mem hhead
          · intro p hp hmm2
            obtain ⟨idx, pr, hpr, hidx, hpe⟩ := mem_swapsFor hp
            subst hpe
            rw [show (_data_to_el (s.nextId + idx) pr.2).ids =
                  [s.nextId + idx] from rfl] at hmm2
            have h1 := List.mem_singleton.mp hmm2
            have h2 := hbound c.1 (hper c (List.mem_cons_self _ _)).1
            omega
        have hpn := parentOf_none _ c.1 hnomem
        rw [SVG.tostring]
        simp only [hel, truthy, if_true, Option.getD_some]
        rw [show swapsFor (s.nextId + (c :: cs).length) (c :: cs) =
              (c.1, _data_to_el (s.nextId + (c :: cs).length + 0) c.2) ::
                (cs.enumFrom 1).map (fun p =>
                  (p.2.1, _data_to_el (s.nextId + (c :: cs).length + p.1) p.2.2))
            from rfl]
        rw [applySwaps, hpn]
        rfl

theorem claim_C9_witness :
    ((SVG.ofTree exDoc).shapes).2 = exPop ∧
    (exPop.tostring.isOk = true ∧
      exPop.tostring.toOption.map (fun r => r.2.elements) = some (some exCache) ∧
      (exPop.tostring.bind (fun r => r.2.tostring)).isOk = false) :=
  ⟨rfl, claim_C9_second_tostring_fails exPop exCache rfl (by decide) (by decide)⟩

end Nanosvg
